import Mathlib

/-!
Shallow embedding of the History Store and Expression Evaluation Engine of
the json-query-tools extension (src/unnamed/part_000, src/src/extension.ts),
together with proofs of the specified properties.

The store state is the persisted collection under the `jsonQueryTools.history`
key; machine strings are modelled as Lean `String`, the persisted union type
`(string | HistoryItem)[]` as a list of a sum-like inductive.
-/

/-- Embeds the `HISTORY_LIMIT` constant (capacity 200). -/
def HISTORY_LIMIT : Nat := 200

/-- Embeds `interface HistoryItem { expr; isFavorite; name? }`. -/
structure HistoryItem where
  expr : String
  isFavorite : Bool
  name : Option String
deriving DecidableEq

/-- Embeds the persisted element union `string | HistoryItem` of `StoredHistory`. -/
inductive StoredItem where
  | str (s : String)
  | item (it : HistoryItem)
deriving DecidableEq

/-- Embeds `normalizeHistory`: bare strings become `{ expr, isFavorite: false }`,
structured items pass through. -/
def normalizeHistory (raw : List StoredItem) : List HistoryItem :=
  raw.map (fun x =>
    match x with
    | .str s => ⟨s, false, none⟩
    | .item it => it)

/-- Models a write of the in-memory list into the persisted
`StoredHistory`-typed slot (`context.globalState.update(HISTORY_KEY, list)`):
every element written is a structured item. -/
def serializeHistory (l : List HistoryItem) : List StoredItem :=
  l.map StoredItem.item

/-- Embeds the capacity-enforcement block of `pushHistory`
(`if (list.length > HISTORY_LIMIT) { ... }`): `needed` entries are marked for
deletion by index — a first pass over the oldest non-favorites
(`for i ...; if (!list[i].isFavorite && deleted < needed) toDelete.add(i)`),
then a second pass over the oldest favorites — and the marked indices are
filtered out (`list.filter((_, i) => !toDelete.has(i))`).  The first loop
collects the first `needed` indices of non-favorites in scan order, which is
`take needed` of the list of all non-favorite indices; likewise the second. -/
def enforceLimit (list : List HistoryItem) : List HistoryItem :=
  if HISTORY_LIMIT < list.length then
    let needed := list.length - HISTORY_LIMIT
    let marked1 := ((list.enum.filter (fun q => !q.2.isFavorite)).map Prod.fst).take needed
    let marked2 := ((list.enum.filter (fun q => q.2.isFavorite)).map Prod.fst).take
      (needed - marked1.length)
    let toDelete := marked1 ++ marked2
    (list.enum.filter (fun q => decide (q.1 ∉ toDelete))).map Prod.snd
  else list

/-- Embeds `pushHistory` on an already-normalized list: look up the first entry
with this `expr` (`findIndex`), remember its `isFavorite`, remove it
(`splice(existingIdx, 1)` = erase the first match), push `{ expr, isFavorite }`
at the tail, then enforce the capacity limit.  The pushed record carries no
`name` field. -/
def pushHistory (list0 : List HistoryItem) (expr : String) : List HistoryItem :=
  let isFav :=
    match list0.find? (fun e => decide (e.expr = expr)) with
    | some e => e.isFavorite
    | none => false
  let pruned := list0.eraseP (fun e => decide (e.expr = expr))
  enforceLimit (pruned ++ [⟨expr, isFav, none⟩])

/-- Models JavaScript `String.prototype.trim()` by structural recursion on the
character list (a kernel-evaluable rendering of `String.trim`): leading and
trailing whitespace characters are dropped. -/
def trimStr (s : String) : String :=
  ⟨((s.data.dropWhile fun c => c.isWhitespace).reverse.dropWhile fun c =>
      c.isWhitespace).reverse⟩

/-- Embeds the `renameHistoryItem` message handler: find the item by `expr`;
set its `name` to the new name unconditionally, and force `isFavorite = true`
exactly when the new name is non-empty after trimming
(`if (newName.trim() !== '') hist[itemIdx].isFavorite = true`). -/
def renameHistoryItem (hist : List HistoryItem) (targetExpr newName : String) :
    List HistoryItem :=
  match hist.findIdx? (fun h => decide (h.expr = targetExpr)) with
  | none => hist
  | some i =>
    match hist[i]? with
    | none => hist
    | some it =>
      hist.set i ⟨it.expr, if trimStr newName = "" then it.isFavorite else true, some newName⟩

/-- Modelled from the spec's eviction description: remove the `n` oldest
entries satisfying `p`, oldest first, keeping the survivors in their
relative order. -/
def removeOldest (p : HistoryItem → Bool) : Nat → List HistoryItem → List HistoryItem
  | _, [] => []
  | 0, x :: xs => x :: xs
  | n + 1, x :: xs => if p x then removeOldest p n xs else x :: removeOldest p (n + 1) xs

/-- Modelled from the spec's words for the eviction algorithm: mark up to `k`
non-favorites oldest first; if fewer than `k` non-favorites exist, the
remaining evictions come from the favorites, oldest first. -/
def evictSpec (k : Nat) (l : List HistoryItem) : List HistoryItem :=
  removeOldest (fun e => e.isFavorite) (k - l.countP (fun e => !e.isFavorite))
    (removeOldest (fun e => !e.isFavorite) k l)

/-- Models JavaScript `String.prototype.toLowerCase()` characterwise (a
kernel-evaluable rendering of `String.toLower`). -/
def lowerStr (s : String) : String :=
  ⟨s.data.map Char.toLower⟩

/-- Models JavaScript `String.prototype.includes(needle)` on character lists:
some suffix of the haystack starts with the needle. -/
def hasSubstring (needle : List Char) : List Char → Bool
  | [] => needle.isEmpty
  | c :: rest => needle.isPrefixOf (c :: rest) || hasSubstring needle rest

/-- Embeds the history-search filter of `renderList`: with an empty search term
every item matches; otherwise the lowercased expression, or the (truthy)
lowercased name, must contain the term as a substring. -/
def matchesSearch (searchTerm : String) (it : HistoryItem) : Bool :=
  if searchTerm = "" then true
  else
    hasSubstring searchTerm.data (lowerStr it.expr).data ||
      match it.name with
      | none => false
      | some nm => decide (nm ≠ "") && hasSubstring searchTerm.data (lowerStr nm).data

/-- Models `localeCompare(...) <= 0` as lexicographic order on the character
lists (kernel-evaluable rendering of string comparison). -/
def charListLe : List Char → List Char → Bool
  | [], _ => true
  | _ :: _, [] => false
  | a :: as, b :: bs =>
    if a.val < b.val then true else if b.val < a.val then false else charListLe as bs

/-- Embeds the favorites comparator of `renderList` as the non-strict "sorts
no later than" relation `cmp a b <= 0` used by the stable sort: trimmed names
are compared (`localeCompare` modelled as lexicographic string order); a named
favorite sorts before an unnamed one; two unnamed favorites tie. -/
def favLe (a b : HistoryItem) : Bool :=
  let nameA := trimStr (a.name.getD "")
  let nameB := trimStr (b.name.getD "")
  if nameA = "" then (if nameB = "" then true else false)
  else if nameB = "" then true
  else charListLe nameA.data nameB.data

/-- Embeds the ordering computation of the webview's `renderList`
(src/unnamed/part_000): filter by the lowercased, trimmed search term,
partition into favorites and others (the `forEach` push), stably sort the
favorites by the comparator (JavaScript `Array.prototype.sort` is stable, so
it is modelled by insertion sort), and concatenate
`[...favorites, ...others.reverse()]`.  The DOM construction itself is
elided; the function returns the presentation order of the items. -/
def renderList (items : List HistoryItem) (searchRaw : String) : List HistoryItem :=
  let searchTerm := trimStr (lowerStr searchRaw)
  let filteredItems := items.filter (matchesSearch searchTerm)
  let favorites := filteredItems.filter (fun it => it.isFavorite)
  let others := filteredItems.filter (fun it => !it.isFavorite)
  let favoritesSorted := List.insertionSort (fun a b => favLe a b = true) favorites
  favoritesSorted ++ others.reverse

/-- Modelled from the spec's words for the presentation ordering: named
favorites sorted alphabetically by (trimmed) name, then the unnamed favorites
in their original relative order, then the non-favorites in reverse insertion
order (most recent first). -/
def specPresentation (items : List HistoryItem) : List HistoryItem :=
  let favs := items.filter (fun it => it.isFavorite)
  let named := favs.filter (fun it => decide (trimStr (it.name.getD "") ≠ ""))
  let unnamed := favs.filter (fun it => decide (trimStr (it.name.getD "") = ""))
  List.insertionSort
      (fun a b => charListLe (trimStr (a.name.getD "")).data (trimStr (b.name.getD "")).data
        = true) named
    ++ unnamed ++ (items.filter (fun it => !it.isFavorite)).reverse

mutual
/-- Models a JavaScript runtime value as far as the evaluation engine observes
it: the engine only distinguishes `undefined`, callables, and everything else;
numbers, strings and arrays are carried so the specified examples are
expressible. -/
inductive JsValue where
  | undef : JsValue
  | num (n : Int) : JsValue
  | str (s : String) : JsValue
  | arr (elems : List JsValue) : JsValue
  | callable (f : JsFn) : JsValue

/-- First-order representation of a callable produced by evaluating a script,
applied by `applyFn`: a constant function, the query function
`(d) => d.length`, or a function whose invocation throws. -/
inductive JsFn where
  | constF (v : JsValue) : JsFn
  | dataLength : JsFn
  | raises (msg : String) : JsFn
end

/-- Applies a modelled callable to `(data, require)`; the second execution
step of `evaluateExpression`, which may itself throw. -/
def applyFn (f : JsFn) (data _req : JsValue) : Except String JsValue :=
  match f with
  | .constF v => .ok v
  | .dataLength =>
    match data with
    | .arr elems => .ok (.num elems.length)
    | _ => .ok .undef
  | .raises m => .error m

/-- Embeds `evaluateExpression` of src/unnamed/part_000.  The compiled script
(`new Function('data', 'require', expr)` followed by the first call) is the
injected runner `fn`, which may throw (`Except.error`).  If the first result
is itself a function, it is invoked once with the same `(data, require)`
arguments; otherwise the first result is the final result. -/
def evaluateExpression (fn : JsValue → JsValue → Except String JsValue)
    (data req : JsValue) : Except String JsValue :=
  match fn data req with
  | .error m => .error m
  | .ok firstResult =>
    match firstResult with
    | .callable f => applyFn f data req
    | v => .ok v

/-- Outcome posted back by the `run` message handler: a `result` message with
the value, or a `result` message carrying the caught error's message. -/
inductive RunOutcome where
  | result (v : JsValue)
  | evalError (msg : String)

/-- Embeds the `run` branch of `onDidReceiveMessage` together with its
enclosing `try/catch`: compile and evaluate; on success push to history when
`save` is truthy; any exception is caught, the history is left untouched and
the error message is reported.  `compiled` models `new Function(...)`, which
can already throw at compile time. -/
def runHandler (hist : List HistoryItem) (expr : String)
    (compiled : Except String (JsValue → JsValue → Except String JsValue))
    (data req : JsValue) (save : Bool) : List HistoryItem × RunOutcome :=
  match compiled with
  | .error m => (hist, .evalError m)
  | .ok fn =>
    match evaluateExpression fn data req with
    | .ok v => ((if save then pushHistory hist expr else hist), .result v)
    | .error m => (hist, .evalError m)

/-- Index list of the entries satisfying `p`, in scan order, when the list is
enumerated starting at `n`; `idxsP p 0 list` is the sequence of indices the
marking loops of `enforceLimit` visit for predicate `p`. -/
def idxsP (p : HistoryItem → Bool) (n : Nat) (l : List HistoryItem) : List Nat :=
  ((List.enumFrom n l).filter (fun q => p q.2)).map Prod.fst

theorem removeOldest_nil (p : HistoryItem → Bool) (k : Nat) : removeOldest p k [] = [] := by
  cases k <;> rfl

theorem removeOldest_zero (p : HistoryItem → Bool) (l : List HistoryItem) :
    removeOldest p 0 l = l := by
  cases l <;> rfl

theorem removeOldest_cons_pos {p : HistoryItem → Bool} {x : HistoryItem} (hx : p x = true)
    (k : Nat) (xs : List HistoryItem) :
    removeOldest p (k + 1) (x :: xs) = removeOldest p k xs := by
  simp [removeOldest, hx]

theorem removeOldest_cons_neg {p : HistoryItem → Bool} {x : HistoryItem} (hx : p x = false)
    (k : Nat) (xs : List HistoryItem) :
    removeOldest p k (x :: xs) = x :: removeOldest p k xs := by
  cases k with
  | zero => rw [removeOldest_zero, removeOldest_zero]
  | succ k => simp [removeOldest, hx]

theorem removeOldest_sublist (p : HistoryItem → Bool) :
    ∀ (k : Nat) (l : List HistoryItem), List.Sublist (removeOldest p k l) l := by
  intro k l
  induction l generalizing k with
  | nil => rw [removeOldest_nil]
  | cons x xs ih =>
    cases k with
    | zero => rw [removeOldest_zero]
    | succ k =>
      cases hx : p x with
      | true =>
        rw [removeOldest_cons_pos hx]
        exact List.Sublist.cons x (ih k)
      | false =>
        rw [removeOldest_cons_neg hx]
        exact List.Sublist.cons₂ x (ih (k + 1))

theorem removeOldest_length (p : HistoryItem → Bool) :
    ∀ (k : Nat) (l : List HistoryItem),
      (removeOldest p k l).length = l.length - min k (l.countP p) := by
  intro k l
  induction l generalizing k with
  | nil => rw [removeOldest_nil]; simp
  | cons x xs ih =>
    cases k with
    | zero => rw [removeOldest_zero]; simp
    | succ k =>
      cases hx : p x with
      | true =>
        rw [removeOldest_cons_pos hx, ih k, List.countP_cons_of_pos _ _ hx]
        simp only [List.length_cons]
        omega
      | false =>
        have hc : xs.countP p ≤ xs.length := xs.countP_le_length p
        rw [removeOldest_cons_neg hx, List.countP_cons_of_neg _ _ (by simp [hx])]
        simp only [List.length_cons, ih (k + 1)]
        omega

theorem removeOldest_filter_pos (p : HistoryItem → Bool) :
    ∀ (k : Nat) (l : List HistoryItem),
      (removeOldest p k l).filter p = (l.filter p).drop k := by
  intro k l
  induction l generalizing k with
  | nil => rw [removeOldest_nil]; simp
  | cons x xs ih =>
    cases k with
    | zero => rw [removeOldest_zero]; simp
    | succ k =>
      cases hx : p x with
      | true =>
        rw [removeOldest_cons_pos hx, List.filter_cons_of_pos hx, List.drop_succ_cons, ih k]
      | false =>
        rw [removeOldest_cons_neg hx, List.filter_cons_of_neg (by simp [hx]),
          List.filter_cons_of_neg (by simp [hx]), ih (k + 1)]

theorem removeOldest_filter_neg (p : HistoryItem → Bool) :
    ∀ (k : Nat) (l : List HistoryItem),
      (removeOldest p k l).filter (fun x => !(p x)) = l.filter (fun x => !(p x)) := by
  intro k l
  induction l generalizing k with
  | nil => rw [removeOldest_nil]
  | cons x xs ih =>
    cases k with
    | zero => rw [removeOldest_zero]
    | succ k =>
      cases hx : p x with
      | true =>
        rw [removeOldest_cons_pos hx, List.filter_cons_of_neg (by simp [hx]), ih k]
      | false =>
        rw [removeOldest_cons_neg hx, List.filter_cons_of_pos (by simp [hx]),
          List.filter_cons_of_pos (by simp [hx]), ih (k + 1)]

theorem le_fst_of_mem_enumFromHist {α : Type} :
    ∀ {l : List α} {n : Nat} {q : Nat × α}, q ∈ List.enumFrom n l → n ≤ q.1 := by
  intro l
  induction l with
  | nil => intro n q h; simp [List.enumFrom] at h
  | cons x xs ih =>
    intro n q h
    rw [List.enumFrom_cons] at h
    rcases List.mem_cons.1 h with h1 | h1
    · subst h1; exact Nat.le_refl n
    · exact Nat.le_of_succ_le (ih h1)

theorem idxsP_cons_pos {p : HistoryItem → Bool} {x : HistoryItem} (hx : p x = true)
    (n : Nat) (xs : List HistoryItem) : idxsP p n (x :: xs) = n :: idxsP p (n + 1) xs := by
  simp [idxsP, List.enumFrom_cons, List.filter_cons, hx]

theorem idxsP_cons_neg {p : HistoryItem → Bool} {x : HistoryItem} (hx : p x = false)
    (n : Nat) (xs : List HistoryItem) : idxsP p n (x :: xs) = idxsP p (n + 1) xs := by
  simp [idxsP, List.enumFrom_cons, List.filter_cons, hx]

theorem mem_idxsP_ge {p : HistoryItem → Bool} {n i : Nat} {l : List HistoryItem}
    (h : i ∈ idxsP p n l) : n ≤ i := by
  obtain ⟨q, hq, rfl⟩ := List.mem_map.1 h
  exact le_fst_of_mem_enumFromHist (List.mem_of_mem_filter hq)

theorem mem_take_idxsP_ge {p : HistoryItem → Bool} {n k i : Nat} {l : List HistoryItem}
    (h : i ∈ (idxsP p n l).take k) : n ≤ i :=
  mem_idxsP_ge (List.mem_of_mem_take h)

theorem idxsP_length (p : HistoryItem → Bool) :
    ∀ (n : Nat) (l : List HistoryItem), (idxsP p n l).length = l.countP p := by
  intro n l
  induction l generalizing n with
  | nil => rfl
  | cons x xs ih =>
    cases hx : p x with
    | true =>
      rw [idxsP_cons_pos hx, List.countP_cons_of_pos _ _ hx]
      simp [ih (n + 1)]
    | false =>
      rw [idxsP_cons_neg hx, List.countP_cons_of_neg _ _ (by simp [hx])]
      exact ih (n + 1)

theorem filter_notMem_cons_eq {n : Nat} {xs : List HistoryItem} (D : List Nat) :
    List.filter (fun q => decide (q.1 ∉ n :: D)) (List.enumFrom (n + 1) xs)
      = List.filter (fun q => decide (q.1 ∉ D)) (List.enumFrom (n + 1) xs) := by
  apply List.filter_congr
  intro q hq
  have h1 : n + 1 ≤ q.1 := le_fst_of_mem_enumFromHist hq
  have hne : q.1 ≠ n := by omega
  apply decide_eq_decide.2
  simp [List.mem_cons, hne]

theorem filter_notMem_middle_eq {n : Nat} {xs : List HistoryItem} (D₁ D₂ : List Nat) :
    List.filter (fun q => decide (q.1 ∉ D₁ ++ n :: D₂)) (List.enumFrom (n + 1) xs)
      = List.filter (fun q => decide (q.1 ∉ D₁ ++ D₂)) (List.enumFrom (n + 1) xs) := by
  apply List.filter_congr
  intro q hq
  have h1 : n + 1 ≤ q.1 := le_fst_of_mem_enumFromHist hq
  have hne : q.1 ≠ n := by omega
  apply decide_eq_decide.2
  simp [List.mem_append, List.mem_cons, hne]

theorem evict_core :
    ∀ (l : List HistoryItem) (n a b : Nat),
      ((List.enumFrom n l).filter (fun q =>
          decide (q.1 ∉ ((idxsP (fun e => !e.isFavorite) n l).take a ++
            (idxsP (fun e => e.isFavorite) n l).take b)))).map Prod.snd
        = removeOldest (fun e => e.isFavorite) b
            (removeOldest (fun e => !e.isFavorite) a l) := by
  intro l
  induction l with
  | nil =>
    intro n a b
    simp [idxsP, removeOldest_nil]
  | cons x xs ih =>
    intro n a b
    cases hx : x.isFavorite with
    | true =>
      rw [List.enumFrom_cons, idxsP_cons_neg (by simp [hx]),
        idxsP_cons_pos (by simp [hx])]
      cases b with
      | zero =>
        simp only [List.take_zero, List.append_nil]
        rw [List.filter_cons_of_pos (by
          refine decide_eq_true ?_
          intro hmem
          have h1 := mem_take_idxsP_ge hmem
          omega)]
        rw [List.map_cons]
        have ih0 := ih (n + 1) a 0
        simp only [List.take_zero, List.append_nil] at ih0
        rw [removeOldest_zero] at ih0
        rw [removeOldest_zero, removeOldest_cons_neg (by simp [hx]), ih0]
      | succ b' =>
        simp only [List.take_succ_cons]
        rw [List.filter_cons_of_neg (by
          simp only [decide_eq_true_eq]
          intro hno
          exact hno (List.mem_append_right _ (List.mem_cons_self _ _)))]
        rw [filter_notMem_middle_eq]
        rw [removeOldest_cons_neg (by simp [hx]), removeOldest_cons_pos (by simp [hx])]
        exact ih (n + 1) a b'
    | false =>
      rw [List.enumFrom_cons, idxsP_cons_pos (by simp [hx]),
        idxsP_cons_neg (by simp [hx])]
      cases a with
      | zero =>
        simp only [List.take_zero, List.nil_append]
        rw [List.filter_cons_of_pos (by
          refine decide_eq_true ?_
          intro hmem
          have h1 := mem_take_idxsP_ge hmem
          omega)]
        rw [List.map_cons]
        have ih0 := ih (n + 1) 0 b
        simp only [List.take_zero, List.nil_append] at ih0
        rw [removeOldest_zero] at ih0
        rw [removeOldest_zero, removeOldest_cons_neg (by simp [hx]), ih0]
      | succ a' =>
        simp only [List.take_succ_cons, List.cons_append]
        rw [List.filter_cons_of_neg (by
          simp only [decide_eq_true_eq]
          intro hno
          exact hno (List.mem_cons_self _ _))]
        rw [filter_notMem_cons_eq]
        rw [removeOldest_cons_pos (by simp [hx])]
        exact ih (n + 1) a' b

theorem enforceLimit_eq_evictSpec (l : List HistoryItem) (h : HISTORY_LIMIT < l.length) :
    enforceLimit l = evictSpec (l.length - HISTORY_LIMIT) l := by
  have hlen : ((idxsP (fun e => !e.isFavorite) 0 l).take (l.length - HISTORY_LIMIT)).length
      = min (l.length - HISTORY_LIMIT) (l.countP (fun e => !e.isFavorite)) := by
    rw [List.length_take, idxsP_length]
  have hcore := evict_core l 0 (l.length - HISTORY_LIMIT)
    ((l.length - HISTORY_LIMIT) -
      ((idxsP (fun e => !e.isFavorite) 0 l).take (l.length - HISTORY_LIMIT)).length)
  have hb : (l.length - HISTORY_LIMIT) -
      ((idxsP (fun e => !e.isFavorite) 0 l).take (l.length - HISTORY_LIMIT)).length
      = (l.length - HISTORY_LIMIT) - l.countP (fun e => !e.isFavorite) := by
    rw [hlen]; omega
  have hfinal : enforceLimit l = removeOldest (fun e => e.isFavorite)
      ((l.length - HISTORY_LIMIT) -
        ((idxsP (fun e => !e.isFavorite) 0 l).take (l.length - HISTORY_LIMIT)).length)
      (removeOldest (fun e => !e.isFavorite) (l.length - HISTORY_LIMIT) l) := by
    unfold enforceLimit
    rw [if_pos h]
    exact hcore
  rw [hfinal, hb]
  rfl

theorem filter_not_not_fav (l : List HistoryItem) :
    l.filter (fun x => !(!x.isFavorite)) = l.filter (fun e => e.isFavorite) := by
  apply List.filter_congr
  intro a _
  simp

theorem countP_fav_add_countP_nonfav (l : List HistoryItem) :
    l.countP (fun e => e.isFavorite) + l.countP (fun e => !e.isFavorite) = l.length := by
  induction l with
  | nil => rfl
  | cons x xs ih =>
    cases hx : x.isFavorite <;> simp [List.countP_cons, hx] <;> omega

theorem countP_fav_removeOldest_nonfav (k : Nat) (l : List HistoryItem) :
    (removeOldest (fun e => !e.isFavorite) k l).countP (fun e => e.isFavorite)
      = l.countP (fun e => e.isFavorite) := by
  rw [List.countP_eq_length_filter, List.countP_eq_length_filter,
    ← filter_not_not_fav, removeOldest_filter_neg, filter_not_not_fav]

theorem enforceLimit_length (l : List HistoryItem) :
    (enforceLimit l).length =
      if HISTORY_LIMIT < l.length then HISTORY_LIMIT else l.length := by
  by_cases h : HISTORY_LIMIT < l.length
  · rw [enforceLimit_eq_evictSpec l h, if_pos h]
    unfold evictSpec
    rw [removeOldest_length, countP_fav_removeOldest_nonfav, removeOldest_length]
    have hsum := countP_fav_add_countP_nonfav l
    omega
  · unfold enforceLimit
    rw [if_neg h, if_neg h]

theorem enforceLimit_length_le (m : List HistoryItem) :
    (enforceLimit m).length ≤ HISTORY_LIMIT := by
  rw [enforceLimit_length]
  by_cases h : HISTORY_LIMIT < m.length
  · rw [if_pos h]
  · rw [if_neg h]; omega

theorem pushHistory_length_le (l : List HistoryItem) (e : String) :
    (pushHistory l e).length ≤ HISTORY_LIMIT := by
  unfold pushHistory
  exact enforceLimit_length_le _

theorem enforceLimit_sublist (m : List HistoryItem) :
    List.Sublist (enforceLimit m) m := by
  by_cases h : HISTORY_LIMIT < m.length
  · rw [enforceLimit_eq_evictSpec m h]
    exact (removeOldest_sublist _ _ _).trans (removeOldest_sublist _ _ _)
  · unfold enforceLimit
    rw [if_neg h]

theorem not_mem_exprs_eraseP (e : String) :
    ∀ (l : List HistoryItem), (l.map (fun it => it.expr)).Nodup →
      ∀ x ∈ l.eraseP (fun it => decide (it.expr = e)), x.expr ≠ e := by
  intro l
  induction l with
  | nil => intro _ x hx; simp at hx
  | cons y ys ih =>
    intro hnd x hx
    by_cases hy : y.expr = e
    · rw [List.eraseP_cons_of_pos (by simp [hy])] at hx
      intro hxe
      have hmem : e ∈ ys.map (fun it => it.expr) := List.mem_map.2 ⟨x, hx, hxe⟩
      rw [List.map_cons] at hnd
      have h2 := (List.nodup_cons.1 hnd).1
      rw [hy] at h2
      exact h2 hmem
    · rw [List.eraseP_cons_of_neg (by simp [hy])] at hx
      rcases List.mem_cons.1 hx with h3 | h3
      · subst h3; exact hy
      · refine ih ?_ x h3
        rw [List.map_cons] at hnd
        exact (List.nodup_cons.1 hnd).2

theorem exprs_nodup_append_singleton (l : List HistoryItem) (y : HistoryItem)
    (hnd : (l.map (fun it => it.expr)).Nodup) (hnot : ∀ x ∈ l, x.expr ≠ y.expr) :
    (((l ++ [y]).map (fun it => it.expr))).Nodup := by
  rw [List.map_append, List.map_singleton]
  rw [List.nodup_append]
  refine ⟨hnd, List.nodup_singleton _, ?_⟩
  intro s hs
  obtain ⟨x, hx, rfl⟩ := List.mem_map.1 hs
  simp [hnot x hx]

theorem pushHistory_exprs_nodup (l : List HistoryItem) (e : String)
    (h : (l.map (fun it => it.expr)).Nodup) :
    ((pushHistory l e).map (fun it => it.expr)).Nodup := by
  unfold pushHistory
  apply List.Nodup.sublist (List.Sublist.map _ (enforceLimit_sublist _))
  apply exprs_nodup_append_singleton
  · exact List.Nodup.sublist (List.Sublist.map _ (List.eraseP_sublist l)) h
  · intro x hx
    exact not_mem_exprs_eraseP e l h x hx

theorem removeOldest_fav_filter_nonfav (k : Nat) (l : List HistoryItem) :
    (removeOldest (fun e => e.isFavorite) k l).filter (fun e => !e.isFavorite)
      = l.filter (fun e => !e.isFavorite) := by
  simpa using removeOldest_filter_neg (fun e => e.isFavorite) k l

theorem enforceLimit_filter_nonfav (l : List HistoryItem) (h : HISTORY_LIMIT < l.length) :
    (enforceLimit l).filter (fun e => !e.isFavorite)
      = (l.filter (fun e => !e.isFavorite)).drop (l.length - HISTORY_LIMIT) := by
  rw [enforceLimit_eq_evictSpec l h]
  unfold evictSpec
  rw [removeOldest_fav_filter_nonfav, removeOldest_filter_pos]

theorem removeOldest_nonfav_filter_fav (k : Nat) (l : List HistoryItem) :
    (removeOldest (fun e => !e.isFavorite) k l).filter (fun e => e.isFavorite)
      = l.filter (fun e => e.isFavorite) := by
  rw [← filter_not_not_fav, removeOldest_filter_neg, filter_not_not_fav]

theorem enforceLimit_filter_fav (l : List HistoryItem) (h : HISTORY_LIMIT < l.length) :
    (enforceLimit l).filter (fun e => e.isFavorite)
      = (l.filter (fun e => e.isFavorite)).drop
          ((l.length - HISTORY_LIMIT) - l.countP (fun e => !e.isFavorite)) := by
  rw [enforceLimit_eq_evictSpec l h]
  unfold evictSpec
  rw [removeOldest_filter_pos, removeOldest_nonfav_filter_fav]

theorem orderedInsert_unnamed (x : HistoryItem) (hx : trimStr (x.name.getD "") = "") :
    ∀ (A U : List HistoryItem), (∀ a ∈ A, trimStr (a.name.getD "") ≠ "") →
      (∀ u ∈ U, trimStr (u.name.getD "") = "") →
      List.orderedInsert (fun a b => favLe a b = true) x (A ++ U) = A ++ x :: U := by
  intro A
  induction A with
  | nil =>
    intro U _ hU
    cases U with
    | nil => rfl
    | cons u us =>
      have hu : trimStr (u.name.getD "") = "" := hU u (List.mem_cons_self u us)
      simp [List.orderedInsert, favLe, hx, hu]
  | cons a A' ih =>
    intro U hA hU
    have ha : trimStr (a.name.getD "") ≠ "" := hA a (List.mem_cons_self a A')
    have hxa : favLe x a = false := by
      simp [favLe, hx, ha]
    simp only [List.cons_append, List.orderedInsert, hxa, List.append_eq]
    rw [if_neg (by simp [hxa])]
    rw [ih U (fun b hb => hA b (List.mem_cons_of_mem a hb)) hU]

theorem orderedInsert_named (x : HistoryItem) (hx : trimStr (x.name.getD "") ≠ "") :
    ∀ (A U : List HistoryItem), (∀ u ∈ U, trimStr (u.name.getD "") = "") →
      List.orderedInsert (fun a b => favLe a b = true) x (A ++ U)
        = (List.orderedInsert (fun a b => favLe a b = true) x A) ++ U := by
  intro A
  induction A with
  | nil =>
    intro U hU
    cases U with
    | nil => rfl
    | cons u us =>
      have hu : trimStr (u.name.getD "") = "" := hU u (List.mem_cons_self u us)
      have hxu : favLe x u = true := by
        simp [favLe, hx, hu]
      simp [List.orderedInsert, hxu]
  | cons a A' ih =>
    intro U hU
    simp only [List.cons_append, List.orderedInsert, List.append_eq]
    by_cases hxa : favLe x a = true
    · rw [if_pos hxa, if_pos hxa, List.cons_append, List.cons_append]
    · rw [if_neg hxa, if_neg hxa, List.cons_append, ih U hU]

theorem insertionSort_favLe_partition :
    ∀ (l : List HistoryItem),
      List.insertionSort (fun a b => favLe a b = true) l
        = List.insertionSort (fun a b => favLe a b = true)
            (l.filter (fun it => decide (trimStr (it.name.getD "") ≠ "")))
          ++ l.filter (fun it => decide (trimStr (it.name.getD "") = "")) := by
  intro l
  induction l with
  | nil => rfl
  | cons x xs ih =>
    simp only [List.insertionSort]
    rw [ih]
    by_cases hx : trimStr (x.name.getD "") = ""
    · rw [orderedInsert_unnamed x hx]
      · rw [List.filter_cons_of_neg (by simp [hx]), List.filter_cons_of_pos (by simp [hx])]
      · intro a ha
        have h1 : a ∈ xs.filter (fun it => decide (trimStr (it.name.getD "") ≠ "")) :=
          (List.perm_insertionSort _ _).mem_iff.1 ha
        simpa using (List.mem_filter.1 h1).2
      · intro u hu
        simpa using (List.mem_filter.1 hu).2
    · rw [orderedInsert_named x hx]
      · rw [List.filter_cons_of_pos (by simp [hx]), List.filter_cons_of_neg (by simp [hx])]
        simp [List.insertionSort]
      · intro u hu
        simpa using (List.mem_filter.1 hu).2

theorem orderedInsert_rel_congr {r s : HistoryItem → HistoryItem → Prop}
    [DecidableRel r] [DecidableRel s] (x : HistoryItem) :
    ∀ (L : List HistoryItem), (∀ b ∈ L, r x b ↔ s x b) →
      List.orderedInsert r x L = List.orderedInsert s x L := by
  intro L
  induction L with
  | nil => intro _; rfl
  | cons b bs ih =>
    intro hb
    simp only [List.orderedInsert]
    by_cases hrb : r x b
    · rw [if_pos hrb, if_pos ((hb b (List.mem_cons_self b bs)).1 hrb)]
    · rw [if_neg hrb, if_neg (fun hsb => hrb ((hb b (List.mem_cons_self b bs)).2 hsb)),
        ih (fun c hc => hb c (List.mem_cons_of_mem b hc))]

theorem insertionSort_rel_congr {r s : HistoryItem → HistoryItem → Prop}
    [DecidableRel r] [DecidableRel s] :
    ∀ (L : List HistoryItem), (∀ a ∈ L, ∀ b ∈ L, r a b ↔ s a b) →
      List.insertionSort r L = List.insertionSort s L := by
  intro L
  induction L with
  | nil => intro _; rfl
  | cons x xs ih =>
    intro h
    simp only [List.insertionSort]
    rw [ih (fun a ha b hb => h a (List.mem_cons_of_mem x ha) b (List.mem_cons_of_mem x hb))]
    apply orderedInsert_rel_congr
    intro b hb
    have hbmem : b ∈ xs := (List.perm_insertionSort s xs).mem_iff.1 hb
    exact h x (List.mem_cons_self x xs) b (List.mem_cons_of_mem x hbmem)

theorem favLe_of_named {a b : HistoryItem} (ha : trimStr (a.name.getD "") ≠ "")
    (hb : trimStr (b.name.getD "") ≠ "") :
    favLe a b = charListLe (trimStr (a.name.getD "")).data (trimStr (b.name.getD "")).data := by
  simp [favLe, ha, hb]

theorem renderList_eq_specPresentation (items : List HistoryItem) :
    renderList items "" = specPresentation items := by
  unfold renderList specPresentation
  have hterm : trimStr (lowerStr "") = "" := rfl
  simp only [hterm]
  have hfilter : items.filter (matchesSearch "") = items := by
    have : ∀ it ∈ items, matchesSearch "" it = true := by
      intro it _
      simp [matchesSearch]
    induction items with
    | nil => rfl
    | cons y ys ihy =>
      rw [List.filter_cons_of_pos (by simp [matchesSearch])]
      rw [ihy (fun it hit => by simp [matchesSearch])]
  rw [hfilter]
  rw [insertionSort_favLe_partition]
  rw [List.append_assoc]
  have hcongr :
      List.insertionSort (fun a b => favLe a b = true)
          ((items.filter (fun it => it.isFavorite)).filter
            (fun it => decide (trimStr (it.name.getD "") ≠ "")))
        = List.insertionSort
            (fun a b =>
              charListLe (trimStr (a.name.getD "")).data (trimStr (b.name.getD "")).data = true)
          ((items.filter (fun it => it.isFavorite)).filter
            (fun it => decide (trimStr (it.name.getD "") ≠ ""))) := by
    apply insertionSort_rel_congr
    intro a ha b hb
    have ha2 : trimStr (a.name.getD "") ≠ "" := by simpa using (List.mem_filter.1 ha).2
    have hb2 : trimStr (b.name.getD "") ≠ "" := by simpa using (List.mem_filter.1 hb).2
    rw [favLe_of_named ha2 hb2]
  rw [hcongr, List.append_assoc]

theorem enforceLimit_of_le (m : List HistoryItem) (h : m.length ≤ HISTORY_LIMIT) :
    enforceLimit m = m := by
  unfold enforceLimit
  rw [if_neg (by omega)]

theorem pushHistory_found (l : List HistoryItem) (e : String) (it : HistoryItem)
    (hfind : l.find? (fun h => decide (h.expr = e)) = some it)
    (hlen : l.length ≤ HISTORY_LIMIT) :
    pushHistory l e
      = l.eraseP (fun h => decide (h.expr = e)) ++ [⟨e, it.isFavorite, none⟩] := by
  have hmem : it ∈ l := List.mem_of_find?_eq_some hfind
  have hp := List.find?_some hfind
  have hlen1 : (l.eraseP (fun h => decide (h.expr = e))).length = l.length - 1 :=
    List.length_eraseP_of_mem hmem hp
  have hpos : 0 < l.length := List.length_pos_of_mem hmem
  unfold pushHistory
  simp only [hfind]
  apply enforceLimit_of_le
  rw [List.length_append, hlen1]
  simp only [List.length_singleton]
  omega

theorem pushHistory_notFound (l : List HistoryItem) (e : String)
    (hfind : l.find? (fun h => decide (h.expr = e)) = none)
    (hlen : l.length < HISTORY_LIMIT) :
    pushHistory l e = l ++ [⟨e, false, none⟩] := by
  have hno : ∀ x ∈ l, ¬ (decide (x.expr = e) = true) := List.find?_eq_none.1 hfind
  have hpr : l.eraseP (fun h => decide (h.expr = e)) = l :=
    List.eraseP_of_forall_not hno
  unfold pushHistory
  simp only [hfind, hpr]
  apply enforceLimit_of_le
  rw [List.length_append]
  simp only [List.length_singleton]
  omega

theorem removeOldest_append_all_neg (p : HistoryItem → Bool) (k : Nat) :
    ∀ (l m : List HistoryItem), (∀ x ∈ l, p x = false) →
      removeOldest p k (l ++ m) = l ++ removeOldest p k m := by
  intro l
  induction l with
  | nil => intro m _; rfl
  | cons y ys ih =>
    intro m hneg
    rw [List.cons_append,
      removeOldest_cons_neg (hneg y (List.mem_cons_self y ys)),
      ih m (fun x hx => hneg x (List.mem_cons_of_mem y hx)), List.cons_append]

theorem foldl_pushHistory_length_le :
    ∀ (es : List String) (h0 : List HistoryItem), h0.length ≤ HISTORY_LIMIT →
      (List.foldl pushHistory h0 es).length ≤ HISTORY_LIMIT := by
  intro es
  induction es with
  | nil => intro h0 h; exact h
  | cons e es ih =>
    intro h0 h
    exact ih (pushHistory h0 e) (pushHistory_length_le h0 e)

theorem foldl_pushHistory_nodup :
    ∀ (es : List String) (h0 : List HistoryItem), (h0.map (fun it => it.expr)).Nodup →
      ((List.foldl pushHistory h0 es).map (fun it => it.expr)).Nodup := by
  intro es
  induction es with
  | nil => intro h0 h; exact h
  | cons e es ih =>
    intro h0 h
    exact ih (pushHistory h0 e) (pushHistory_exprs_nodup h0 e h)

/-- C1: starting from any persisted collection holding at most `CAPACITY = 200`
entries, after every `pushHistory` (upsert) call of any call sequence the
collection's size is at most 200. -/
theorem capacity_invariant (h0 : List HistoryItem) (es : List String) (n : Nat)
    (h : h0.length ≤ HISTORY_LIMIT) :
    (List.foldl pushHistory h0 (es.take n)).length ≤ HISTORY_LIMIT :=
  foldl_pushHistory_length_le (es.take n) h0 h

theorem capacity_invariant_witness :
    ([(⟨"seed", true, none⟩ : HistoryItem)].length ≤ HISTORY_LIMIT) ∧
      (List.foldl pushHistory [⟨"seed", true, none⟩] (["a", "b"].take 2)).length
        ≤ HISTORY_LIMIT :=
  ⟨by decide, capacity_invariant [⟨"seed", true, none⟩] ["a", "b"] 2 (by decide)⟩

/-- C2: starting from a duplicate-free collection, after every `pushHistory`
(upsert) call of any call sequence no two entries share the same expression
text. -/
theorem dedup_invariant (h0 : List HistoryItem) (es : List String) (n : Nat)
    (h : (h0.map (fun it => it.expr)).Nodup) :
    ((List.foldl pushHistory h0 (es.take n)).map (fun it => it.expr)).Nodup :=
  foldl_pushHistory_nodup (es.take n) h0 h

theorem dedup_invariant_witness :
    (([(⟨"x", false, none⟩ : HistoryItem)].map (fun it => it.expr)).Nodup) ∧
      ((List.foldl pushHistory [⟨"x", false, none⟩] (["x", "y"].take 2)).map
        (fun it => it.expr)).Nodup :=
  ⟨by decide, dedup_invariant [⟨"x", false, none⟩] ["x", "y"] 2 (by decide)⟩

/-- C3: when an upsert leaves the collection over capacity by
`k = size - CAPACITY`, the eviction pass equals the spec's algorithm
(`evictSpec`); the survivors keep their relative order (sublist); the
surviving non-favorites are exactly the original non-favorites with the `k`
oldest dropped; when at least `k` non-favorites exist no favorite is removed;
in general the surviving favorites are the original favorites with the
`k - #nonfavorites` oldest dropped (zero when `k <= #nonfavorites`). -/
theorem eviction_policy (l : List HistoryItem) (h : HISTORY_LIMIT < l.length) :
    enforceLimit l = evictSpec (l.length - HISTORY_LIMIT) l
    ∧ List.Sublist (enforceLimit l) l
    ∧ (enforceLimit l).filter (fun e => !e.isFavorite)
        = (l.filter (fun e => !e.isFavorite)).drop (l.length - HISTORY_LIMIT)
    ∧ ((l.length - HISTORY_LIMIT) ≤ l.countP (fun e => !e.isFavorite) →
        (enforceLimit l).filter (fun e => e.isFavorite) = l.filter (fun e => e.isFavorite))
    ∧ (enforceLimit l).filter (fun e => e.isFavorite)
        = (l.filter (fun e => e.isFavorite)).drop
            ((l.length - HISTORY_LIMIT) - l.countP (fun e => !e.isFavorite)) := by
  refine ⟨enforceLimit_eq_evictSpec l h, enforceLimit_sublist l,
    enforceLimit_filter_nonfav l h, ?_, enforceLimit_filter_fav l h⟩
  intro hk
  rw [enforceLimit_filter_fav l h]
  have hz : (l.length - HISTORY_LIMIT) - l.countP (fun e => !e.isFavorite) = 0 := by omega
  rw [hz, List.drop_zero]

set_option maxRecDepth 4000 in
theorem eviction_policy_witness :
    HISTORY_LIMIT <
        ((List.replicate 100 (⟨"f", true, none⟩ : HistoryItem)) ++
          List.replicate 101 (⟨"n", false, none⟩ : HistoryItem)).length ∧
      List.Sublist
        (enforceLimit ((List.replicate 100 (⟨"f", true, none⟩ : HistoryItem)) ++
          List.replicate 101 (⟨"n", false, none⟩ : HistoryItem)))
        ((List.replicate 100 (⟨"f", true, none⟩ : HistoryItem)) ++
          List.replicate 101 (⟨"n", false, none⟩ : HistoryItem)) :=
  ⟨by decide,
    (eviction_policy ((List.replicate 100 ⟨"f", true, none⟩) ++
      List.replicate 101 ⟨"n", false, none⟩) (by decide)).2.1⟩

/-- C4 counterexample: upserting an existing expression does NOT preserve its
`displayName` — the code pushes `{ expr, isFavorite: isFav }` with no `name`
field, so a named favorite loses its name on a recency bump. -/
theorem recency_bump_drops_name_cex :
    pushHistory [⟨"x", true, some "My"⟩] "x" = [⟨"x", true, none⟩] ∧
      ∀ it ∈ pushHistory [⟨"x", true, some "My"⟩] "x", it.name ≠ some "My" := by
  decide

/-- C4 amended: upserting an existing expression removes it from its current
position and re-inserts it at the tail preserving `isFavorite` but dropping
`displayName` (the re-inserted record has no name); upserting an absent
expression appends `{ expr, isFavorite: false }` at the tail (capacity
hypotheses keep the eviction pass out of the way). -/
theorem upsert_amended (l : List HistoryItem) (e : String) :
    (∀ it, l.find? (fun h => decide (h.expr = e)) = some it → l.length ≤ HISTORY_LIMIT →
        pushHistory l e
          = l.eraseP (fun h => decide (h.expr = e)) ++ [⟨e, it.isFavorite, none⟩])
    ∧ (l.find? (fun h => decide (h.expr = e)) = none → l.length < HISTORY_LIMIT →
        pushHistory l e = l ++ [⟨e, false, none⟩]) :=
  ⟨fun it hf hl => pushHistory_found l e it hf hl,
    fun hf hl => pushHistory_notFound l e hf hl⟩

theorem upsert_amended_witness :
    pushHistory [⟨"x", true, some "My"⟩, ⟨"y", false, none⟩] "x"
      = [⟨"y", false, none⟩, ⟨"x", true, none⟩] := by
  have h := (upsert_amended [⟨"x", true, some "My"⟩, ⟨"y", false, none⟩] "x").1
    ⟨"x", true, some "My"⟩ (by decide) (by decide)
  rw [h]
  decide

/-- C5: if the first evaluation result is a callable, `evaluateExpression`
invokes it with the same `(data, require)` arguments and returns its result;
otherwise the final result is the first result; in particular the modelled
`return (d) => d.length` script on `[1, 2, 3]` evaluates to `3`. -/
theorem indirect_invocation :
    (∀ (fn : JsValue → JsValue → Except String JsValue) (data req : JsValue) (f : JsFn),
        fn data req = .ok (.callable f) →
          evaluateExpression fn data req = applyFn f data req)
    ∧ (∀ (fn : JsValue → JsValue → Except String JsValue) (data req v : JsValue),
        fn data req = .ok v → (∀ g, v ≠ .callable g) →
          evaluateExpression fn data req = .ok v)
    ∧ evaluateExpression (fun _ _ => .ok (.callable .dataLength))
        (.arr [.num 1, .num 2, .num 3]) .undef = .ok (.num 3) := by
  refine ⟨?_, ?_, rfl⟩
  · intro fn data req f h
    unfold evaluateExpression
    rw [h]
  · intro fn data req v h hnc
    unfold evaluateExpression
    rw [h]
    cases v with
    | callable g => exact absurd rfl (hnc g)
    | undef => rfl
    | num n => rfl
    | str s => rfl
    | arr es => rfl

theorem indirect_invocation_witness :
    evaluateExpression (fun _ _ => .ok (.callable (.constF (.num 7)))) .undef .undef
      = applyFn (.constF (.num 7)) .undef .undef :=
  indirect_invocation.1 (fun _ _ => .ok (.callable (.constF (.num 7)))) .undef .undef
    (.constF (.num 7)) rfl

/-- C6 counterexample: a whitespace-only new name is non-empty, yet the code
checks `newName.trim() !== ''`, so the rename sets the name to the whitespace
string and does NOT force `isFavorite = true`. -/
theorem rename_whitespace_cex :
    (" " : String) ≠ "" ∧
      renameHistoryItem [⟨"x", false, none⟩] "x" " " = [⟨"x", false, some " "⟩] := by
  decide

/-- C6 amended: renaming the entry found for an expression sets its
`displayName` to the new name and forces `isFavorite = true` exactly when the
new name is non-empty AFTER TRIMMING; an empty (or whitespace-only) new name
leaves `isFavorite` unchanged; the entry is never deleted (the length and all
other positions are untouched). -/
theorem rename_amended (hist : List HistoryItem) (e nn : String) (i : Nat)
    (it : HistoryItem)
    (hfind : hist.findIdx? (fun h => decide (h.expr = e)) = some i)
    (hget : hist[i]? = some it) :
    (renameHistoryItem hist e nn)[i]?
        = some ⟨it.expr, if trimStr nn = "" then it.isFavorite else true, some nn⟩
    ∧ (renameHistoryItem hist e nn).length = hist.length
    ∧ ∀ j, j ≠ i → (renameHistoryItem hist e nn)[j]? = hist[j]? := by
  have hi : i < hist.length := by
    rw [List.getElem?_eq_some] at hget
    exact hget.1
  unfold renameHistoryItem
  simp only [hfind, hget]
  refine ⟨?_, List.length_set hist i _, ?_⟩
  · rw [List.getElem?_set_self']
    simp [List.getElem?_eq_getElem hi]
  · intro j hj
    exact List.getElem?_set_ne (fun hij => hj hij.symm)

theorem rename_amended_witness :
    (renameHistoryItem [⟨"x", false, none⟩] "x" "My Query")[0]?
        = some ⟨"x", true, some "My Query"⟩ ∧
      (renameHistoryItem [⟨"x", false, none⟩] "x" "My Query").length = 1 := by
  have h := rename_amended [⟨"x", false, none⟩] "x" "My Query" 0 ⟨"x", false, none⟩
    (by decide) (by decide)
  refine ⟨?_, h.2.1⟩
  rw [h.1]
  decide

theorem normalizeHistory_serializeHistory (l : List HistoryItem) :
    normalizeHistory (serializeHistory l) = l := by
  induction l with
  | nil => rfl
  | cons x xs ih =>
    unfold normalizeHistory serializeHistory at ih ⊢
    rw [List.map_cons, List.map_cons, ih]

/-- C7: normalization maps each bare string `s` to
`{ expr: s, isFavorite: false }` and keeps structured entries unchanged
positionwise; it is lossless on structured blobs and idempotent
(normalize-serialize-normalize equals normalize); every write produced by a
mutation serializes only structured items, never bare strings; and the
specified legacy blob normalizes as stated. -/
theorem legacy_normalization :
    (∀ (raw : List StoredItem) (i : Nat) (s : String), raw[i]? = some (.str s) →
        (normalizeHistory raw)[i]? = some ⟨s, false, none⟩)
    ∧ (∀ (raw : List StoredItem) (i : Nat) (it : HistoryItem), raw[i]? = some (.item it) →
        (normalizeHistory raw)[i]? = some it)
    ∧ (∀ l : List HistoryItem, normalizeHistory (serializeHistory l) = l)
    ∧ (∀ raw : List StoredItem,
        normalizeHistory (serializeHistory (normalizeHistory raw)) = normalizeHistory raw)
    ∧ (∀ (l : List HistoryItem) (x : StoredItem), x ∈ serializeHistory l →
        ∃ it, x = StoredItem.item it)
    ∧ normalizeHistory [.str "a", .item ⟨"b", true, none⟩]
        = [⟨"a", false, none⟩, ⟨"b", true, none⟩] := by
  refine ⟨?_, ?_, normalizeHistory_serializeHistory, ?_, ?_, by decide⟩
  · intro raw i s h
    unfold normalizeHistory
    rw [List.getElem?_map, h]
    rfl
  · intro raw i it h
    unfold normalizeHistory
    rw [List.getElem?_map, h]
    rfl
  · intro raw
    exact normalizeHistory_serializeHistory (normalizeHistory raw)
  · intro l x hx
    unfold serializeHistory at hx
    obtain ⟨it, _, rfl⟩ := List.mem_map.1 hx
    exact ⟨it, rfl⟩

theorem legacy_normalization_witness :
    (normalizeHistory [.str "a", .item ⟨"b", true, none⟩])[0]?
      = some ⟨"a", false, none⟩ :=
  legacy_normalization.1 [.str "a", .item ⟨"b", true, none⟩] 0 "a" rfl

/-- C8: a compile-time throw (`new Function` fails) or an evaluation throw is
caught by the `run` handler's `try/catch`: the handler returns normally with
an error message carrying the underlying text, and the persisted history is
left exactly as it was — `pushHistory` is never reached on a failing
evaluation. -/
theorem evaluation_error_containment :
    (∀ (hist : List HistoryItem) (expr : String) (data req : JsValue) (save : Bool)
        (m : String),
        runHandler hist expr (.error m) data req save = (hist, .evalError m))
    ∧ (∀ (hist : List HistoryItem) (expr : String)
        (fn : JsValue → JsValue → Except String JsValue) (data req : JsValue)
        (save : Bool) (m : String),
        evaluateExpression fn data req = .error m →
          runHandler hist expr (.ok fn) data req save = (hist, .evalError m)) := by
  refine ⟨fun hist expr data req save m => rfl, ?_⟩
  intro hist expr fn data req save m h
  unfold runHandler
  simp only [h]

theorem evaluation_error_containment_witness :
    runHandler [⟨"old", false, none⟩] "\x7d\x7b" (.ok (fun _ _ => .error "SyntaxError"))
        .undef .undef true
      = ([⟨"old", false, none⟩], .evalError "SyntaxError") :=
  evaluation_error_containment.2 [⟨"old", false, none⟩] "\x7d\x7b"
    (fun _ _ => .error "SyntaxError") .undef .undef true "SyntaxError" rfl

/-- C9: for every stored collection the list view's presentation order is the
spec's: named favorites sorted alphabetically by (trimmed) name, then the
unnamed favorites in their original relative order, then the non-favorites in
reverse insertion order; the view is a pure function of the stored list, so
producing it leaves the stored order untouched by construction. -/
theorem presentation_ordering (items : List HistoryItem) :
    renderList items "" = specPresentation items :=
  renderList_eq_specPresentation items

/-- C10: upserting a never-before-seen expression into a store of exactly 200
entries that are all favorited appends the new non-favorited entry and then
evicts it again (it is the only, hence oldest, non-favorite): the store is
returned unchanged and the fresh expression is absent after the call. -/
theorem eviction_of_fresh_expression (l : List HistoryItem) (e : String)
    (hlen : l.length = HISTORY_LIMIT)
    (hfav : ∀ it ∈ l, it.isFavorite = true)
    (hexpr : ∀ it ∈ l, it.expr ≠ e) :
    pushHistory l e = l ∧ ∀ it ∈ pushHistory l e, it.expr ≠ e := by
  have hfind : l.find? (fun h => decide (h.expr = e)) = none :=
    List.find?_eq_none.2 (fun x hx => by simp [hexpr x hx])
  have hpr : l.eraseP (fun h => decide (h.expr = e)) = l :=
    List.eraseP_of_forall_not (fun x hx => by simp [hexpr x hx])
  have hmain : pushHistory l e = l := by
    unfold pushHistory
    simp only [hfind, hpr]
    have hlen1 : (l ++ [(⟨e, false, none⟩ : HistoryItem)]).length = HISTORY_LIMIT + 1 := by
      rw [List.length_append, hlen]
      rfl
    have hover : HISTORY_LIMIT < (l ++ [(⟨e, false, none⟩ : HistoryItem)]).length := by
      rw [hlen1]
      omega
    rw [enforceLimit_eq_evictSpec _ hover]
    unfold evictSpec
    have hcount : (l ++ [(⟨e, false, none⟩ : HistoryItem)]).countP
        (fun e2 => !e2.isFavorite) = 1 := by
      rw [List.countP_append]
      have h0 : l.countP (fun e2 => !e2.isFavorite) = 0 :=
        List.countP_eq_zero.2 (fun x hx => by simp [hfav x hx])
      rw [h0]
      rfl
    rw [hlen1, hcount]
    have hk : HISTORY_LIMIT + 1 - HISTORY_LIMIT = 1 := by omega
    rw [hk]
    simp only [Nat.sub_self]
    rw [removeOldest_zero]
    rw [removeOldest_append_all_neg _ _ l [⟨e, false, none⟩]
      (fun x hx => by simp [hfav x hx])]
    rw [removeOldest_cons_pos (by simp), removeOldest_nil, List.append_nil]
  refine ⟨hmain, ?_⟩
  rw [hmain]
  exact hexpr

set_option maxRecDepth 4000 in
theorem eviction_of_fresh_expression_witness :
    pushHistory (List.replicate 200 (⟨"a", true, none⟩ : HistoryItem)) "b"
      = List.replicate 200 (⟨"a", true, none⟩ : HistoryItem) :=
  (eviction_of_fresh_expression (List.replicate 200 ⟨"a", true, none⟩) "b"
    (by decide) (by decide) (by decide)).1
